import Mathlib

/-!
Shallow embedding of the numeric procedures of the HMMA238 Numba notebook
(`src/Numba/Numba.ipynb`): the Monte Carlo π estimator, the tanh
matrix reduction (`go_slow` / `go_fast`), batch gradient descent
(`gradient`), and the logistic-regression solver
(`logistic_regression` / `logistic_regression_no_jit`).

Real-valued floats are modelled by `ℝ`; numpy index errors and Python
division-by-zero are modelled by `Option`, with `none` standing for the
raised exception.
-/

namespace Numba

/-- A two-dimensional numpy array: a shape `(rows, cols)` together with an
entry function.  Reads outside the shape raise an `IndexError` in numpy,
modelled by `Arr2.get` returning `none`. -/
structure Arr2 where
  rows : ℕ
  cols : ℕ
  entry : ℕ → ℕ → ℝ

/-- Bounds-checked element read `a[i, j]`. -/
def Arr2.get (a : Arr2) (i j : ℕ) : Option ℝ :=
  if i < a.rows ∧ j < a.cols then some (a.entry i j) else none

/-- One pass of the reduction loop body `trace += np.tanh(a[i, i + 1])`,
with the bounds-checked read threaded through `Option`: once an access is
out of range the whole computation is the raised error. -/
noncomputable def traceStep (a : Arr2) (acc : Option ℝ) (i : ℕ) : Option ℝ :=
  acc.bind fun t => (a.get i (i + 1)).map fun x => t + Real.tanh x

/-- `go_slow`: `trace = 0`, then
`for i in range(a.shape[0] - 1): trace += np.tanh(a[i, i + 1])`,
then return `trace`.  (Python's `range` of a negative number is empty,
matching ℕ truncated subtraction in `a.rows - 1`.) -/
noncomputable def go_slow (a : Arr2) : Option ℝ :=
  (List.range (a.rows - 1)).foldl (traceStep a) (some 0)

/-- `go_fast`: the `@jit(nopython=True)`-decorated variant; its body is
textually identical to `go_slow`. -/
noncomputable def go_fast (a : Arr2) : Option ℝ :=
  (List.range (a.rows - 1)).foldl (traceStep a) (some 0)

/-- Every element access `a[i, i + 1]` performed by the reduction loop
(for `i` ranging over `0 .. a.rows - 2`) is within the array's shape. -/
def accessesInBounds (a : Arr2) : Prop :=
  ∀ i, i < a.rows - 1 → i < a.rows ∧ i + 1 < a.cols

instance (a : Arr2) : Decidable (accessesInBounds a) := by
  unfold accessesInBounds; infer_instance

lemma traceStep_none (a : Arr2) (i : ℕ) : traceStep a none i = none := rfl

lemma foldl_traceStep_none (a : Arr2) (l : List ℕ) :
    l.foldl (traceStep a) none = none := by
  induction l with
  | nil => rfl
  | cons i l ih => simpa [traceStep] using ih

lemma foldl_traceStep_inBounds (a : Arr2) (m : ℕ)
    (h : ∀ i, i < m → i < a.rows ∧ i + 1 < a.cols) (t : ℝ) :
    (List.range m).foldl (traceStep a) (some t) =
      some (t + ∑ i ∈ Finset.range m, Real.tanh (a.entry i (i + 1))) := by
  induction m generalizing t with
  | zero => simp
  | succ m ih =>
    have hm : ∀ i, i < m → i < a.rows ∧ i + 1 < a.cols :=
      fun i hi => h i (Nat.lt_succ_of_lt hi)
    have hlast := h m (Nat.lt_succ_self m)
    rw [List.range_succ, List.foldl_append, ih hm t]
    simp only [List.foldl_cons, List.foldl_nil, traceStep, Option.some_bind,
      Arr2.get, if_pos hlast, Option.map_some', Finset.sum_range_succ,
      Option.some.injEq]
    ring

lemma foldl_traceStep_outOfBounds (a : Arr2) (m : ℕ)
    (h : ∃ i, i < m ∧ ¬(i < a.rows ∧ i + 1 < a.cols)) (t : ℝ) :
    (List.range m).foldl (traceStep a) (some t) = none := by
  induction m generalizing t with
  | zero => obtain ⟨i, hi, _⟩ := h; omega
  | succ m ih =>
    rw [List.range_succ, List.foldl_append]
    by_cases hall : ∀ i, i < m → i < a.rows ∧ i + 1 < a.cols
    · -- the bad index must be `m` itself
      obtain ⟨i, hi, hbad⟩ := h
      have him : i = m := by
        rcases Nat.lt_succ_iff_lt_or_eq.mp hi with h' | h'
        · exact absurd (hall i h') hbad
        · exact h'
      rw [foldl_traceStep_inBounds a m hall t]
      simp [traceStep, Arr2.get, him ▸ hbad]
    · push_neg at hall
      obtain ⟨i, hi, hbad⟩ := hall
      rw [ih ⟨i, hi, by omega⟩ t]
      simp [traceStep]

/-! ## Monte Carlo π estimator -/

/-- Number of iterations of `for sample in range(n_samples)` whose drawn
point `vec = np.random.rand(2)` satisfies `np.linalg.norm(vec) < 1.`;
the loop accumulates `acc += 1` for exactly these draws.  `draws` is the
process-wide random stream, one 2-d point per iteration. -/
noncomputable def countInCircle (draws : ℕ → ℝ × ℝ) : ℕ → ℕ
  | 0 => 0
  | k + 1 =>
    countInCircle draws k +
      if Real.sqrt ((draws k).1 ^ 2 + (draws k).2 ^ 2) < 1 then 1 else 0

/-- `monte_carlo_pi`: loop `acc` over `range(n_samples)` counting draws of
norm `< 1`, then `return 4.0 * acc / n_samples`.  `n` is a Python integer;
`range` of a non-positive integer is empty (`Int.toNat`), and Python float
division by zero raises `ZeroDivisionError` (numba's default
`error_model='python'` raises it as well), modelled by `none`. -/
noncomputable def monte_carlo_pi (draws : ℕ → ℝ × ℝ) (n : ℤ) : Option ℝ :=
  if n = 0 then none
  else some (4 * (countInCircle draws n.toNat : ℝ) / (n : ℝ))

lemma countInCircle_le (draws : ℕ → ℝ × ℝ) (k : ℕ) :
    countInCircle draws k ≤ k := by
  induction k with
  | zero => simp [countInCircle]
  | succ k ih =>
    unfold countInCircle
    split <;> omega

/-! ## Batch gradient descent -/

/-- `gradient`: `for k in range(max_iter): w -= step_size * (X.T.dot(X.dot(w) - y))`,
then return `w`.  The last argument is `max_iter`; the body performs one
update per iteration with no convergence test. -/
noncomputable def gradient {n p : ℕ} (X : Matrix (Fin n) (Fin p) ℝ)
    (y : Fin n → ℝ) (w : Fin p → ℝ) (step_size : ℝ) : ℕ → (Fin p → ℝ)
  | 0 => w
  | k + 1 =>
    let wk := gradient X y w step_size k
    wk - step_size • X.transpose.mulVec (X.mulVec wk - y)

/-- The update `w ← w − s·Xᵗ(Xw − y)` exactly as the specification words
it, to be compared with the loop body of `gradient`. -/
noncomputable def gdUpdate {n p : ℕ} (X : Matrix (Fin n) (Fin p) ℝ)
    (y : Fin n → ℝ) (s : ℝ) (w : Fin p → ℝ) : Fin p → ℝ :=
  w - s • X.transpose.mulVec (X.mulVec w - y)

/-! ## Logistic regression -/

/-- `logistic_regression`:
`for i in range(iterations): w -= np.dot(((1.0 / (1.0 + np.exp(-y * np.dot(X, w))) - 1.0) * y), X)`,
then return `w`.  (`np.dot(v, X)` with a length-`n` vector `v` is the
row-vector product `vᵗX`, i.e. `Matrix.vecMul`.) -/
noncomputable def logistic_regression {n p : ℕ} (y : Fin n → ℝ)
    (X : Matrix (Fin n) (Fin p) ℝ) (w : Fin p → ℝ) : ℕ → (Fin p → ℝ)
  | 0 => w
  | k + 1 =>
    let wk := logistic_regression y X w k
    wk - Matrix.vecMul
      (fun i => (1 / (1 + Real.exp (-(y i * X.mulVec wk i))) - 1) * y i) X

/-- `logistic_regression_no_jit`: the undecorated variant; its body is
textually identical to `logistic_regression`. -/
noncomputable def logistic_regression_no_jit {n p : ℕ} (y : Fin n → ℝ)
    (X : Matrix (Fin n) (Fin p) ℝ) (w : Fin p → ℝ) : ℕ → (Fin p → ℝ)
  | 0 => w
  | k + 1 =>
    let wk := logistic_regression_no_jit y X w k
    wk - Matrix.vecMul
      (fun i => (1 / (1 + Real.exp (-(y i * X.mulVec wk i))) - 1) * y i) X

/-- The update `w ← w − (((1/(1+exp(−y⊙(Xw)))) − 1) ⊙ y)ᵗX` exactly as
the specification words it, to be compared with the loop body of
`logistic_regression`. -/
noncomputable def logUpdate {n p : ℕ} (y : Fin n → ℝ)
    (X : Matrix (Fin n) (Fin p) ℝ) (w : Fin p → ℝ) : Fin p → ℝ :=
  w - Matrix.vecMul
    (fun i => (1 / (1 + Real.exp (-(y i * X.mulVec w i))) - 1) * y i) X

/-! ## Solver state, for the frame claim

The Python solvers receive the arrays by reference and the statement
`w -= ...` writes the weight buffer in place; `X` and `y` are only read.
The per-call memory is modelled as a record of the three arrays, each
iteration as a state update, and the return value as the final `w` field. -/

/-- The arrays visible to one solver call. -/
structure SolverState (n p : ℕ) where
  X : Matrix (Fin n) (Fin p) ℝ
  y : Fin n → ℝ
  w : Fin p → ℝ

/-- The `gradient` loop acting on the full call state: each iteration
rewrites the `w` buffer with the loop body, reading `X` and `y` from the
state. -/
noncomputable def gradientRun {n p : ℕ} (s : ℝ) (st : SolverState n p) :
    ℕ → SolverState n p
  | 0 => st
  | k + 1 =>
    let st' := gradientRun s st k
    { st' with
      w := st'.w - s • st'.X.transpose.mulVec (st'.X.mulVec st'.w - st'.y) }

/-- The `logistic_regression` loop acting on the full call state. -/
noncomputable def logisticRun {n p : ℕ} (st : SolverState n p) :
    ℕ → SolverState n p
  | 0 => st
  | k + 1 =>
    let st' := logisticRun st k
    { st' with
      w := st'.w - Matrix.vecMul
        (fun i => (1 / (1 + Real.exp (-(st'.y i * st'.X.mulVec st'.w i))) - 1)
          * st'.y i) st'.X }

/-! ## Concrete inputs -/

/-- The 3×3 array `np.arange(9).reshape(3, 3)`: entries `0..8` row-major. -/
noncomputable def arr3 : Arr2 := ⟨3, 3, fun i j => ((3 * i + j : ℕ) : ℝ)⟩

/-- A 2-row, 1-column array of zeros. -/
noncomputable def arr21 : Arr2 := ⟨2, 1, fun _ _ => 0⟩

/-- A 1-row array. -/
noncomputable def oneRowArr : Arr2 := ⟨1, 3, fun i j => ((3 * i + j : ℕ) : ℝ)⟩

/-- A 0-row array. -/
noncomputable def emptyArr : Arr2 := ⟨0, 0, fun _ _ => 0⟩

/-- A 3-row, 2-column array of zeros: more rows than columns. -/
noncomputable def tallArr : Arr2 := ⟨3, 2, fun _ _ => 0⟩

/-- A random stream that always draws the origin. -/
noncomputable def zeroDraws : ℕ → ℝ × ℝ := fun _ => (0, 0)

/-! ## Claim theorems -/

/-- C1: for every feature matrix `X`, target `y`, initial weights `w`,
step size `s` and iteration count `k`, `gradient` performs exactly `k`
updates `w ← w − s·Xᵗ(Xw − y)` — it is the `k`-fold iterate of that
update, with no convergence check and no early termination — and returns
the resulting `w`. -/
theorem gradient_eq_iterate_gdUpdate {n p : ℕ} (X : Matrix (Fin n) (Fin p) ℝ)
    (y : Fin n → ℝ) (w : Fin p → ℝ) (s : ℝ) (k : ℕ) :
    gradient X y w s k = (gdUpdate X y s)^[k] w := by
  induction k with
  | zero => rfl
  | succ k ih =>
    rw [Function.iterate_succ_apply', ← ih]
    rfl

/-- C2: for every `X`, labels `y`, initial weights `w` and iteration
count `k`, `logistic_regression` performs exactly `k` updates
`w ← w − (((1/(1+exp(−y⊙(Xw)))) − 1) ⊙ y)ᵗX` — it is the `k`-fold
iterate of that update — and returns the final `w`. -/
theorem logistic_regression_eq_iterate_logUpdate {n p : ℕ}
    (y : Fin n → ℝ) (X : Matrix (Fin n) (Fin p) ℝ) (w : Fin p → ℝ) (k : ℕ) :
    logistic_regression y X w k = (logUpdate y X)^[k] w := by
  induction k with
  | zero => rfl
  | succ k ih =>
    rw [Function.iterate_succ_apply', ← ih]
    rfl

/-- C3 (counterexample): a 2-row, 1-column array has at least 2 rows, yet
the reduction raises an index error (`none`) instead of returning the
claimed sum. -/
theorem go_slow_arr21_none : 2 ≤ arr21.rows ∧ go_slow arr21 = none := by
  constructor
  · norm_num [arr21]
  · unfold go_slow
    apply foldl_traceStep_outOfBounds
    exact ⟨0, by norm_num [arr21]⟩

/-- C3 (amended): for every two-dimensional array with at least 2 rows
and at least as many columns as rows, the reduction returns the sum over
`i` from `0` to `rows − 2` of `tanh(a[i, i + 1])`. -/
theorem go_slow_sum_of_cols_ge_rows (a : Arr2) (h2 : 2 ≤ a.rows)
    (h : a.rows ≤ a.cols) :
    go_slow a =
      some (∑ i ∈ Finset.range (a.rows - 1), Real.tanh (a.entry i (i + 1))) := by
  unfold go_slow
  rw [foldl_traceStep_inBounds a (a.rows - 1) (fun i hi => by omega) 0,
    zero_add]

/-- C3 (witness): on the 3×3 row-major array with entries `0..8` the
reduction returns `tanh 1 + tanh 5`. -/
theorem go_slow_sum_witness :
    2 ≤ arr3.rows ∧ arr3.rows ≤ arr3.cols ∧
      go_slow arr3 = some (Real.tanh 1 + Real.tanh 5) := by
  refine ⟨by norm_num [arr3], by norm_num [arr3], ?_⟩
  rw [go_slow_sum_of_cols_ge_rows arr3 (by norm_num [arr3])
    (by norm_num [arr3])]
  norm_num [arr3, Finset.sum_range_succ]

/-- C4: for every draw stream and `n ≥ 1`, `monte_carlo_pi` returns
`4 · count / n` where `count` is the number of the `n` consumed draws
with Euclidean norm strictly below `1`, and that value lies in `[0, 4]`. -/
theorem monte_carlo_pi_count_and_range (draws : ℕ → ℝ × ℝ) (n : ℤ)
    (h : 1 ≤ n) :
    monte_carlo_pi draws n
        = some (4 * (countInCircle draws n.toNat : ℝ) / (n : ℝ)) ∧
      0 ≤ 4 * (countInCircle draws n.toNat : ℝ) / (n : ℝ) ∧
      4 * (countInCircle draws n.toNat : ℝ) / (n : ℝ) ≤ 4 := by
  have hn0 : (0 : ℝ) < (n : ℝ) := by exact_mod_cast h
  have hcount : (countInCircle draws n.toNat : ℝ) ≤ (n : ℝ) := by
    have h1 : (countInCircle draws n.toNat : ℝ) ≤ (n.toNat : ℝ) := by
      exact_mod_cast countInCircle_le draws n.toNat
    have h2 : ((n.toNat : ℕ) : ℝ) = (n : ℝ) := by
      rw_mod_cast [Int.toNat_of_nonneg (by omega)]
    linarith
  refine ⟨?_, ?_, ?_⟩
  · unfold monte_carlo_pi
    rw [if_neg (by omega)]
  · positivity
  · rw [div_le_iff₀ hn0]
    linarith

/-- C4 (witness): with the always-origin stream and `n = 2` the estimate
is defined and in range. -/
theorem monte_carlo_pi_count_and_range_witness :
    (1 : ℤ) ≤ 2 ∧
      (monte_carlo_pi zeroDraws 2
          = some (4 * (countInCircle zeroDraws (2 : ℤ).toNat : ℝ) / ((2 : ℤ) : ℝ)) ∧
        0 ≤ 4 * (countInCircle zeroDraws (2 : ℤ).toNat : ℝ) / ((2 : ℤ) : ℝ) ∧
        4 * (countInCircle zeroDraws (2 : ℤ).toNat : ℝ) / ((2 : ℤ) : ℝ) ≤ 4) :=
  ⟨by norm_num, monte_carlo_pi_count_and_range zeroDraws 2 (by norm_num)⟩

/-- C5 (counterexample): on a 1-row array the reduction does not fail: the
loop `range(rows − 1)` is empty and the function returns `0`. -/
theorem go_slow_oneRow_returns_zero :
    oneRowArr.rows < 2 ∧ go_slow oneRowArr = some 0 := by
  constructor
  · norm_num [oneRowArr]
  · unfold go_slow
    norm_num [oneRowArr]

/-- C5 (amended): for every two-dimensional array with fewer than 2 rows,
the reduction performs no loop iteration and returns `0` (no error). -/
theorem go_slow_of_rows_lt_two (a : Arr2) (h : a.rows < 2) :
    go_slow a = some 0 := by
  unfold go_slow
  have h1 : a.rows - 1 = 0 := by omega
  rw [h1]
  rfl

/-- C5 (witness): a 0-row array also returns `0`. -/
theorem go_slow_of_rows_lt_two_witness :
    emptyArr.rows < 2 ∧ go_slow emptyArr = some 0 :=
  ⟨by norm_num [emptyArr], go_slow_of_rows_lt_two emptyArr (by norm_num [emptyArr])⟩

/-- C6 (counterexample): with a negative sample count the loop is empty
and `4·0 / n` is an ordinary float division: `monte_carlo_pi` returns
`0`, not a division-by-zero error. -/
theorem monte_carlo_pi_neg_no_error : monte_carlo_pi zeroDraws (-1) = some 0 := by
  unfold monte_carlo_pi
  rw [if_neg (by norm_num)]
  norm_num [countInCircle]

/-- C6 (amended): `monte_carlo_pi` raises a division-by-zero error exactly
when `n = 0`; for `n < 0` the empty loop gives count `0` and the function
returns `0` without error. -/
theorem monte_carlo_pi_error_iff_zero (draws : ℕ → ℝ × ℝ) (n : ℤ) :
    (monte_carlo_pi draws n = none ↔ n = 0) ∧
      (n < 0 → monte_carlo_pi draws n = some 0) := by
  constructor
  · unfold monte_carlo_pi
    constructor
    · intro h
      by_contra hne
      rw [if_neg hne] at h
      exact Option.some_ne_none _ h
    · intro h
      rw [if_pos h]
  · intro hneg
    unfold monte_carlo_pi
    rw [if_neg (by omega)]
    have h0 : n.toNat = 0 := by omega
    rw [h0]
    norm_num [countInCircle]

/-- C6 (witness): at `n = 0` the call errors; at `n = −2` it returns `0`. -/
theorem monte_carlo_pi_error_iff_zero_witness :
    monte_carlo_pi zeroDraws 0 = none ∧ monte_carlo_pi zeroDraws (-2) = some 0 :=
  ⟨(monte_carlo_pi_error_iff_zero zeroDraws 0).1.mpr rfl,
    (monte_carlo_pi_error_iff_zero zeroDraws (-2)).2 (by norm_num)⟩

/-- C7: with `step_size = 0` every update is the identity, so `gradient`
returns `w` unchanged after any number of iterations. -/
theorem gradient_zero_step {n p : ℕ} (X : Matrix (Fin n) (Fin p) ℝ)
    (y : Fin n → ℝ) (w : Fin p → ℝ) (k : ℕ) :
    gradient X y w 0 k = w := by
  induction k with
  | zero => rfl
  | succ k ih => simp [gradient, ih]

lemma gradientRun_X {n p : ℕ} (s : ℝ) (st : SolverState n p) (k : ℕ) :
    (gradientRun s st k).X = st.X := by
  induction k with
  | zero => rfl
  | succ k ih => simp [gradientRun, ih]

lemma gradientRun_y {n p : ℕ} (s : ℝ) (st : SolverState n p) (k : ℕ) :
    (gradientRun s st k).y = st.y := by
  induction k with
  | zero => rfl
  | succ k ih => simp [gradientRun, ih]

lemma gradientRun_w {n p : ℕ} (s : ℝ) (st : SolverState n p) (k : ℕ) :
    (gradientRun s st k).w = gradient st.X st.y st.w s k := by
  induction k with
  | zero => rfl
  | succ k ih => simp [gradientRun, gradient, ih, gradientRun_X, gradientRun_y]

lemma logisticRun_X {n p : ℕ} (st : SolverState n p) (k : ℕ) :
    (logisticRun st k).X = st.X := by
  induction k with
  | zero => rfl
  | succ k ih => simp [logisticRun, ih]

lemma logisticRun_y {n p : ℕ} (st : SolverState n p) (k : ℕ) :
    (logisticRun st k).y = st.y := by
  induction k with
  | zero => rfl
  | succ k ih => simp [logisticRun, ih]

lemma logisticRun_w {n p : ℕ} (st : SolverState n p) (k : ℕ) :
    (logisticRun st k).w = logistic_regression st.y st.X st.w k := by
  induction k with
  | zero => rfl
  | succ k ih =>
    simp [logisticRun, logistic_regression, ih, logisticRun_X, logisticRun_y]

/-- C8: running either solver loop on the call state leaves the `X` and
`y` buffers unchanged, while each iteration rewrites the `w` buffer; the
value the function returns is exactly that final `w` buffer, as computed
by the corresponding pure solver. -/
theorem solver_frame {n p : ℕ} (st : SolverState n p) (s : ℝ) (k : ℕ) :
    (gradientRun s st k).X = st.X ∧ (gradientRun s st k).y = st.y ∧
      (gradientRun s st k).w = gradient st.X st.y st.w s k ∧
      (logisticRun st k).X = st.X ∧ (logisticRun st k).y = st.y ∧
      (logisticRun st k).w = logistic_regression st.y st.X st.w k :=
  ⟨gradientRun_X s st k, gradientRun_y s st k, gradientRun_w s st k,
    logisticRun_X st k, logisticRun_y st k, logisticRun_w st k⟩

/-- C9: the jit-decorated and undecorated variants compute the same
function: `logistic_regression_no_jit` agrees with `logistic_regression`
on all inputs, and `go_fast` agrees with `go_slow` on all arrays. -/
theorem jit_variants_agree :
    (∀ (n p : ℕ) (y : Fin n → ℝ) (X : Matrix (Fin n) (Fin p) ℝ)
        (w : Fin p → ℝ) (k : ℕ),
      logistic_regression_no_jit y X w k = logistic_regression y X w k) ∧
    ∀ a : Arr2, go_fast a = go_slow a := by
  constructor
  · intro n p y X w k
    induction k with
    | zero => rfl
    | succ k ih =>
      simp only [logistic_regression_no_jit, logistic_regression, ih]
  · intro a
    rfl

/-- C10: for an array with at least 2 rows, every access `a[i, i + 1]` of
the reduction loop is in bounds exactly when the array has at least as
many columns as rows; when it has more rows than columns the loop reaches
an out-of-bounds column access and the reduction errors. -/
theorem reduction_inBounds_iff (a : Arr2) (h2 : 2 ≤ a.rows) :
    (accessesInBounds a ↔ a.rows ≤ a.cols) ∧
      (a.cols < a.rows → go_slow a = none) := by
  constructor
  · constructor
    · intro hab
      have h := hab (a.rows - 2) (by omega)
      omega
    · intro hc i hi
      omega
  · intro hc
    unfold go_slow
    exact foldl_traceStep_outOfBounds a (a.rows - 1)
      ⟨a.rows - 2, by omega, by omega⟩ 0

/-- C10 (witness): the 3×2 array has at least 2 rows, its loop accesses
are not all in bounds, and the reduction errors. -/
theorem reduction_inBounds_iff_witness :
    2 ≤ tallArr.rows ∧ ¬ accessesInBounds tallArr ∧ go_slow tallArr = none :=
  ⟨by norm_num [tallArr],
    fun hab =>
      absurd ((reduction_inBounds_iff tallArr (by norm_num [tallArr])).1.mp hab)
        (by norm_num [tallArr]),
    (reduction_inBounds_iff tallArr (by norm_num [tallArr])).2
      (by norm_num [tallArr])⟩

end Numba
